import Mathlib

/-!
Verification of the code-to-documentation pipeline in
.github/scripts/detect_examples.py and .github/scripts/generate_docs.py.

Strings are modelled as lists of characters (a line or a whole text is a
List Char); Python character classes are modelled on their ASCII fragment,
stated numerically over the code point so that facts about them reduce to
Nat arithmetic.
-/

set_option autoImplicit false
set_option maxRecDepth 8192

namespace BarcodeDocs

abbrev Line := List Char

/-- Characters of a string literal, the bridge from readable literals to the
List Char model. -/
def lchars (s : String) : Line := s.toList

/-- Opening brace character (written via its code point). -/
def obrace : Char := '\x7b'

/-- Closing brace character (written via its code point). -/
def cbrace : Char := '\x7d'

/-- ASCII whitespace as stripped by the Python str.strip method and matched
by the regex class backslash-s: space, tab, newline, carriage return,
vertical tab, form feed. -/
def isWs (c : Char) : Bool :=
  c.toNat = 32 || c.toNat = 9 || c.toNat = 10 || c.toNat = 13 ||
  c.toNat = 11 || c.toNat = 12

/-- Python str.strip, left side. -/
def stripLeft (l : Line) : Line := l.dropWhile isWs

/-- Python str.strip, right side. -/
def stripRight (l : Line) : Line := (l.reverse.dropWhile isWs).reverse

/-- Python str.strip on a line. -/
def strip (l : Line) : Line := stripRight (stripLeft l)

/-- Boolean prefix test on character lists (Python str.startswith). -/
def isPrefixL : Line → Line → Bool
  | [], _ => true
  | _ :: _, [] => false
  | a :: as, b :: bs => a = b && isPrefixL as bs

/-- Python substring containment, the needle-in-hay operator on strings. -/
def containsSub (needle : Line) : Line → Bool
  | [] => isPrefixL needle []
  | hay@(_ :: rest) => isPrefixL needle hay || containsSub needle rest

/-- Number of occurrences of a character in a line (Python str.count for a
single character). -/
def countChar (c : Char) (l : Line) : Nat := (l.filter (fun d => d = c)).length

/-- Python str.endswith for a single character; false on the empty string. -/
def endsWithChar (c : Char) (l : Line) : Bool :=
  match l.getLast? with
  | some d => d = c
  | none => false

/-- Split a text on a separator character, Python str.split with one
character: the empty string yields one empty chunk. -/
def splitChar (sep : Char) : Line → List Line
  | [] => [[]]
  | c :: rest =>
    if c = sep then [] :: splitChar sep rest
    else
      match splitChar sep rest with
      | [] => [[c]]
      | l :: ls => (c :: l) :: ls

/-- Join chunks with a separator character, the inverse of splitChar. -/
def joinChar (sep : Char) : List Line → Line
  | [] => []
  | a :: rest =>
    match rest with
    | [] => a
    | _ :: _ => a ++ sep :: joinChar sep rest

/-- Split a full text into lines as the scripts do with str.split on a
newline. -/
def splitNl : Line → List Line := splitChar '\n'

/-- Join lines with newlines as the scripts do with str.join. -/
def joinNl : List Line → Line := joinChar '\n'

/-! ### The code extractor, clean_code_for_docs (generate_docs.py lines 186-239) -/

/-- Keyword prefix for import-like lines skipped by the extractor. -/
def usingKw : Line := lchars "using "

/-- Keyword prefix for namespace-like lines skipped by the extractor. -/
def namespaceKw : Line := lchars "namespace "

/-- Substring marking any class declaration line. -/
def classKw : Line := lchars "class "

/-- Substring marking the canonical container construct. -/
def pubStaticClassKw : Line := lchars "public static class"

/-- Substring marking the canonical entry point signature. -/
def runSigKw : Line := lchars "public static void Run("

/-- Eight spaces, the base indentation assumed by the extractor. -/
def eightSpaces : Line := List.replicate 8 ' '

/-- Indentation adjustment applied to each emitted line, from line 226 of
generate_docs.py: drop eight leading spaces when present. -/
def adjustIndent (line : Line) : Line :=
  if isPrefixL eightSpaces line then line.drop 8 else line

/-- Loop state of clean_code_for_docs: the in_class and in_method flags and
the running brace counter. -/
structure CleanState where
  inClass : Bool
  inMethod : Bool
  braceCount : Int
  deriving Repr, DecidableEq

/-- Initial loop state of clean_code_for_docs. -/
def initClean : CleanState := ⟨false, false, 0⟩

/-- Net brace contribution of a line: opening braces minus closing braces. -/
def braceDelta (l : Line) : Int :=
  (countChar obrace l : Int) - (countChar cbrace l : Int)

/-- Sum of brace contributions over a sequence of lines. -/
def braceSum (ls : List Line) : Int := (ls.map braceDelta).sum

/-- The per-line loop of clean_code_for_docs (generate_docs.py lines
195-233), one branch per continue in the source; the boolean result records
whether the loop ended through the closing-brace break on line 233 rather
than by running out of input. -/
def cleanGo (s : CleanState) : List Line → List Line × Bool
  | [] => ([], false)
  | line :: rest =>
    let stripped := strip line
    if isPrefixL usingKw stripped || isPrefixL namespaceKw stripped then
      cleanGo s rest
    else if stripped.isEmpty && !s.inMethod then
      cleanGo s rest
    else if containsSub classKw stripped && containsSub pubStaticClassKw stripped then
      cleanGo { s with inClass := true } rest
    else if s.inClass && containsSub runSigKw stripped then
      cleanGo { s with inMethod := true } rest
    else if s.inMethod then
      let bc := s.braceCount + (countChar obrace stripped : Int)
                  - (countChar cbrace stripped : Int)
      if containsSub runSigKw stripped then
        cleanGo { s with braceCount := bc } rest
      else
        let emitted := if stripped.isEmpty then ([] : Line) else adjustIndent line
        if bc ≤ 0 && endsWithChar cbrace stripped then
          ([emitted], true)
        else
          let r := cleanGo { s with braceCount := bc } rest
          (emitted :: r.1, r.2)
    else
      cleanGo s rest

/-- Trailing blank line removal (generate_docs.py lines 236-237). -/
def stripTrailingBlanks (ls : List Line) : List Line :=
  (ls.reverse.dropWhile (fun l => (strip l).isEmpty)).reverse

/-- The extractor on a list of lines: run the loop from the initial state
and trim trailing blank lines. -/
def cleanLines (lines : List Line) : List Line :=
  stripTrailingBlanks (cleanGo initClean lines).1

/-- clean_code_for_docs on a whole text: split on newlines, extract, join
with newlines (generate_docs.py lines 186-239). -/
def clean_code_for_docs (content : Line) : Line :=
  joinNl (cleanLines (splitNl content))

/-! ### Path model: the fragment of pathlib.Path used by the scripts.
A path is its raw string; parts are the slash-separated segments with empty
and single-dot segments dropped, as pathlib normalisation does for the
relative paths handled by these scripts. -/

abbrev Path := Line

/-- Segments of a path, as pathlib.Path.parts for a relative path: split on
the slash and drop empty and single-dot components. -/
def pathParts (p : Path) : List Line :=
  (splitChar '/' p).filter (fun s => !s.isEmpty && s ≠ ['.'])

/-- The string form str(Path(p)): the normalised segments joined with
slashes. -/
def pathStr (p : Path) : Line := joinChar '/' (pathParts p)

/-- The final component of a path, pathlib.Path.name. -/
def pathName (p : Path) : Line := (pathParts p).getLastD []

/-- Stem and suffix of a file name, split at the last dot when that dot is
neither the first nor the last character, as pathlib defines them. -/
def stemSuffix (n : Line) : Line × Line :=
  let rev := n.reverse
  let ext := rev.takeWhile (fun c => c ≠ '.')
  match rev.dropWhile (fun c => c ≠ '.') with
  | [] => (n, [])
  | _ :: restTail =>
    if ext.isEmpty || restTail.isEmpty then (n, [])
    else (restTail.reverse, '.' :: ext.reverse)

/-- pathlib.Path.stem. -/
def pathStem (p : Path) : Line := (stemSuffix (pathName p)).1

/-- pathlib.Path.suffix. -/
def pathSuffix (p : Path) : Line := (stemSuffix (pathName p)).2

/-! ### The change classifier (detect_examples.py) -/

/-- The four recognised category names (detect_examples.py line 54). -/
def valid_categories : List Line :=
  [lchars "Generation", lchars "Reading", lchars "Formatting", lchars "Advanced"]

/-- is_example_file (detect_examples.py lines 37-58): the four textual
acceptance rules, in source order. -/
def is_example_file (p : Path) : Bool :=
  ((pathParts p).any (fun part => part = lchars "Examples.Core")) &&
  (pathSuffix p = lchars ".cs") &&
  (!(pathName p = lchars "LicenseHelper.cs") &&
    !(containsSub (lchars "Test") (pathName p))) &&
  (valid_categories.any (fun cat => containsSub cat (pathStr p)))

/-- get_example_category (detect_examples.py lines 61-67): the first path
segment equal to one of the four category names, else Unknown. -/
def get_example_category (p : Path) : Line :=
  match (pathParts p).find? (fun part => valid_categories.contains part) with
  | some part => part
  | none => lchars "Unknown"

/-- A classified changed file as built in main of detect_examples.py. -/
structure ChangedFile where
  path : Path
  category : Line
  name : Line
  deriving Repr, DecidableEq

/-- The per-path acceptance of main (detect_examples.py lines 77-86):
textual rules plus the on-disk existence check, the latter supplied as an
oracle since the filesystem is an external collaborator. -/
def classify (fsExists : Path → Bool) (p : Path) : Option ChangedFile :=
  if is_example_file p && fsExists p then
    some ⟨p, get_example_category p, pathStem p⟩
  else
    none

/-! ### Analysis engine (generate_docs.py lines 26-119) -/

/-- Python str.lower on the ASCII fragment, applied per character. -/
def pyLowerStr (l : Line) : Line := l.map Char.toLower

/-- Worker for Python str.replace, structurally recursive on a fuel bound
that the caller sets to the length of the scanned string; a replacement
step consumes as much fuel as it drops, so the zero-fuel fallback is never
reached from pyReplace. -/
def pyReplaceGo (old new : Line) : Nat → Line → Line
  | _, [] => []
  | 0, s => s
  | fuel + 1, c :: rest =>
    if old ≠ [] ∧ isPrefixL old (c :: rest) = true then
      new ++ pyReplaceGo old new fuel ((c :: rest).drop old.length)
    else
      c :: pyReplaceGo old new fuel rest

/-- Python str.replace: replace every non-overlapping occurrence of old by
new, scanning left to right. The scripts only call it with a nonempty old;
for an empty old this model returns the string unchanged. -/
def pyReplace (old new s : Line) : Line := pyReplaceGo old new s.length s

/-- get_category_from_path (generate_docs.py lines 114-119): the first path
segment among the four category names, defaulting to General. The list of
names on line 117 coincides with valid_categories. -/
def get_category_from_path (p : Path) : Line :=
  match (pathParts p).find? (fun part => valid_categories.contains part) with
  | some part => part
  | none => lchars "General"

/-- The barcode_types list of fallback_analysis (generate_docs.py lines
91-101): one append per conditional, in source order. -/
def fallbackBarcodeTypes (code : Line) : List Line :=
  (if containsSub (lchars "EncodeTypes.Code128") code then [lchars "Code128"] else []) ++
  (if containsSub (lchars "EncodeTypes.QR") code then [lchars "QR Code"] else []) ++
  (if containsSub (lchars "EncodeTypes.DataMatrix") code then [lchars "DataMatrix"] else []) ++
  (if containsSub (lchars "EncodeTypes.PDF417") code then [lchars "PDF417"] else []) ++
  (if containsSub (lchars "EncodeTypes.Aztec") code then [lchars "Aztec"] else [])

/-- JSON values occurring in analysis payloads: the scripts only ever read
string and list-of-string fields of the parsed object. -/
inductive JVal where
  | s (v : Line)
  | arr (vs : List Line)
  deriving Repr, DecidableEq

/-- A parsed JSON object, as an association list in key order. -/
abbrev Payload := List (Line × JVal)

/-- Dictionary lookup on a payload. -/
def lookupKey (k : Line) (p : Payload) : Option JVal :=
  (p.find? (fun e => e.1 = k)).map (fun e => e.2)

/-- The eight keys the prompt asks the service for (generate_docs.py line
48). -/
def requiredKeys : List Line :=
  [lchars "title", lchars "description", lchars "category",
   lchars "barcode_types", lchars "key_features", lchars "keywords",
   lchars "technical_summary", lchars "code_explanation"]

/-- A payload carries all eight required keys. -/
def hasRequiredKeys (p : Payload) : Bool :=
  requiredKeys.all (fun k => (lookupKey k p).isSome)

/-- fallback_analysis (generate_docs.py lines 85-112). -/
def fallback_analysis (code : Line) (file_path : Path) : Payload :=
  let category := get_category_from_path file_path
  [(lchars "title",
      JVal.s (pyReplace (lchars "_") [' ']
        (pyReplace (lchars "Example") [] (pathStem file_path)))),
   (lchars "description",
      JVal.s (lchars "Demonstrates " ++ pyLowerStr category ++
        lchars " functionality in Aspose.BarCode for .NET")),
   (lchars "category", JVal.s category),
   (lchars "barcode_types", JVal.arr (fallbackBarcodeTypes code)),
   (lchars "key_features",
      JVal.arr [lchars "Barcode Generation", lchars "File Output",
        lchars "Custom Parameters"]),
   (lchars "keywords",
      JVal.s (lchars "Aspose.BarCode, .NET, " ++ category ++
        lchars ", Barcode, C#")),
   (lchars "technical_summary",
      JVal.s (lchars "This example shows how to use Aspose.BarCode for .NET for " ++
        pyLowerStr category)),
   (lchars "code_explanation",
      JVal.s (lchars "The example demonstrates basic usage patterns of the Aspose.BarCode library."))]

/-- Suffix of a line up to and including the last occurrence of a
character. -/
def takeToLast (c : Char) (l : Line) : Line :=
  (l.reverse.dropWhile (fun d => d ≠ c)).reverse

/-- The regex search on line 74 of generate_docs.py, an opening brace
followed greedily by anything up to a closing brace with DOTALL: the match
runs from the first opening brace that has a closing brace after it, to the
last closing brace of the text. -/
def extractJsonBlock : Line → Option Line
  | [] => none
  | c :: rest =>
    if c = obrace && rest.any (fun d => d = cbrace) then
      some (c :: takeToLast cbrace rest)
    else
      extractJsonBlock rest

/-- Outcome of the external service call: failure covers every exception
raised before the regex search (transport errors, timeout, non-success
status, missing response fields); content carries the message text of a
successful response. -/
inductive ServiceOutcome where
  | failure
  | content (text : Line)

/-- analyze_example_code (generate_docs.py lines 26-83). The JSON parser of
the standard library is an external collaborator, abstracted as a function
returning none when json.loads raises; every exception path falls back, as
does the absence of a brace-delimited block; a successfully parsed payload
is returned as is. -/
def analyze_example_code (jsonParse : Line → Option Payload)
    (outcome : ServiceOutcome) (code : Line) (file_path : Path) : Payload :=
  match outcome with
  | ServiceOutcome.failure => fallback_analysis code file_path
  | ServiceOutcome.content text =>
    match extractJsonBlock text with
    | none => fallback_analysis code file_path
    | some block =>
      match jsonParse block with
      | none => fallback_analysis code file_path
      | some payload => payload

/-! ### Document synthesizer (generate_docs.py lines 121-184) -/

/-- The regex word class backslash-w on its ASCII fragment: letters, digits,
underscore. -/
def isWordChar (c : Char) : Bool :=
  (65 ≤ c.toNat && c.toNat ≤ 90) || (97 ≤ c.toNat && c.toNat ≤ 122) ||
  (48 ≤ c.toNat && c.toNat ≤ 57) || c.toNat = 95

/-- Characters kept by the first substitution on line 134: word characters,
whitespace, hyphen. -/
def isSlugKeep (c : Char) : Bool := isWordChar c || isWs c || c.toNat = 45

/-- Characters collapsed by the second substitution on line 135: whitespace
and hyphen. -/
def isRunChar (c : Char) : Bool := isWs c || c.toNat = 45

/-- Scanner for the substitution of every maximal run of whitespace and
hyphens by one hyphen: the flag records whether the previous character
belonged to a run already emitted as a hyphen. -/
def collapseGo : Bool → Line → Line
  | _, [] => []
  | inRun, c :: rest =>
    if isRunChar c then
      if inRun then collapseGo true rest else '-' :: collapseGo true rest
    else c :: collapseGo false rest

/-- The substitution of every maximal run of whitespace and hyphens by one
hyphen, the regex replace on line 135. -/
def collapseRuns (l : Line) : Line := collapseGo false l

/-- The filename computation of determine_docs_path (generate_docs.py lines
134-135) over the ASCII fragment: keep word, whitespace and hyphen
characters, strip, collapse runs to single hyphens, lowercase. The
Unicode-aware slugifyU below extends this model with the behavior that
separates the two. -/
def slugify (title : Line) : Line :=
  pyLowerStr (collapseRuns (strip (title.filter isSlugKeep)))

/-- Unicode extension of the regex word class: the ASCII word characters
together with U+0130, Latin capital letter I with dot above, the one
non-ASCII word character these theorems exercise. The combining mark
U+0307 is not alphanumeric, hence not a word character, in the stdlib re
module. -/
def isWordCharU (c : Char) : Bool := isWordChar c || c.toNat = 304

/-- Characters kept by the first substitution of line 134, over the
extended word class. -/
def isSlugKeepU (c : Char) : Bool := isWordCharU c || isWs c || c.toNat = 45

/-- Full case mapping of Python str.lower on the fragment these theorems
exercise: U+0130 lowercases to the two-character sequence of i followed by
the combining dot above U+0307, while every ASCII character maps to its
ASCII lowering. -/
def pyLowerFull (c : Char) : Line :=
  if c.toNat = 304 then ['i', '\u0307'] else [Char.toLower c]

/-- Python str.lower over a string with the full, length-changing case
mapping: the concatenation of the per-character lowerings. -/
def pyLowerStrFull : Line → Line
  | [] => []
  | c :: rest => pyLowerFull c ++ pyLowerStrFull rest

/-- The filename computation of determine_docs_path over the extended
fragment: the same keep, strip, collapse pipeline as slugify, with the
extended word class and the full lowercase mapping. On ASCII input it
agrees with slugify. -/
def slugifyU (title : Line) : Line :=
  pyLowerStrFull (collapseRuns (strip (title.filter isSlugKeepU)))

/-- The category lookup table of determine_docs_path (generate_docs.py
lines 124-129). -/
def category_map : List (Line × Line) :=
  [(lchars "Generation", lchars "net/developer-guide/barcode-generation"),
   (lchars "Reading", lchars "net/developer-guide/barcode-reading"),
   (lchars "Formatting", lchars "net/developer-guide/barcode-appearance"),
   (lchars "Advanced", lchars "net/developer-guide/advanced-features")]

/-- The base path chosen on line 131, with the default for unknown
categories. -/
def categoryBasePath (category : Line) : Line :=
  match category_map.find? (fun e => e.1 = category) with
  | some e => e.2
  | none => lchars "net/developer-guide"

/-- determine_docs_path (generate_docs.py lines 121-137). -/
def determine_docs_path (category title : Line) : Line :=
  categoryBasePath category ++ '/' :: slugify title

/-- Split a line at the first occurrence of a separator, none when the
separator is absent. -/
def splitFirst (sep : Char) (s : Line) : Option (Line × Line) :=
  match s.dropWhile (fun c => c ≠ sep) with
  | [] => none
  | _ :: tail => some (s.takeWhile (fun c => c ≠ sep), tail)

/-- Python str.split with a maxsplit bound: at most n splits, the remainder
kept whole. -/
def pySplitMax (sep : Char) : Nat → Line → List Line
  | 0, s => [s]
  | n + 1, s =>
    match splitFirst sep s with
    | none => [s]
    | some pr => pr.1 :: pySplitMax sep n pr.2

/-- The url value built on line 153 of generate_docs.py: the documentation
path split on slashes with maxsplit two, last chunk, wrapped between /net/
and a trailing slash. -/
def fmUrl (category title : Line) : Line :=
  lchars "/net/" ++ (pySplitMax '/' 2 (determine_docs_path category title)).getLastD [] ++ ['/']

/-- Front matter scalar values. -/
inductive FMVal where
  | s (v : Line)
  | n (v : Int)
  | b (v : Bool)
  deriving Repr, DecidableEq

/-- The front matter mapping built on lines 143-154 of generate_docs.py, in
source key order. -/
def buildFrontMatter (title description keywords category : Line) :
    List (Line × FMVal) :=
  [(lchars "title", FMVal.s title),
   (lchars "type", FMVal.s (lchars "docs")),
   (lchars "description", FMVal.s description),
   (lchars "keywords", FMVal.s keywords),
   (lchars "ai_search_scope", FMVal.s (lchars "barcode_dotnet_doc")),
   (lchars "ai_search_endpoint", FMVal.s (lchars "https://docsearch.api.aspose.cloud/ask")),
   (lchars "weight", FMVal.n 10),
   (lchars "feedback", FMVal.s (lchars "BARCODECOM")),
   (lchars "notoc", FMVal.b true),
   (lchars "url", FMVal.s (fmUrl category title))]

/-- Python truthiness of a payload value. -/
def jvalTruthy : JVal → Bool
  | JVal.s v => !v.isEmpty
  | JVal.arr vs => !vs.isEmpty

/-- Front matter lookup. -/
def lookupFM (k : Line) (fm : List (Line × FMVal)) : Option FMVal :=
  (fm.find? (fun e => e.1 = k)).map (fun e => e.2)

/-- generate_documentation_content (generate_docs.py lines 139-184): none
models a raised KeyError on a missing metadata key, a TypeError on a
non-string metadata value fed to the regex or the final join, matching the
dynamic failures of the source; otherwise the front matter mapping and the
joined body. Iterating a string-valued key_features yields its characters,
as Python iteration does. -/
def generate_documentation_content (analysis : Payload) (code : Line) :
    Option (List (Line × FMVal) × Line) :=
  match lookupKey (lchars "title") analysis,
        lookupKey (lchars "description") analysis,
        lookupKey (lchars "keywords") analysis,
        lookupKey (lchars "category") analysis,
        lookupKey (lchars "technical_summary") analysis with
  | some (JVal.s title), some (JVal.s description), some (JVal.s keywords),
      some (JVal.s category), some (JVal.s techSummary) =>
    let fm := buildFrontMatter title description keywords category
    let featureItems : List Line :=
      match lookupKey (lchars "key_features") analysis with
      | some (JVal.arr vs) => vs
      | some (JVal.s w) => w.map (fun c => [c])
      | none => []
    let featureTruthy : Bool :=
      match lookupKey (lchars "key_features") analysis with
      | some v => jvalTruthy v
      | none => false
    let featureLines : List Line :=
      if featureTruthy then
        lchars "## Key Features" ::
          featureItems.map (fun f => lchars "- " ++ f) ++ [[]]
      else []
    let explOk : Bool :=
      match lookupKey (lchars "code_explanation") analysis with
      | some (JVal.arr vs) => vs.isEmpty
      | _ => true
    let explLines : List Line :=
      match lookupKey (lchars "code_explanation") analysis with
      | some (JVal.s e) => if !e.isEmpty then [e, []] else []
      | _ => []
    let parts : List Line :=
      [techSummary, []] ++ featureLines ++ explLines ++
      [lchars "The following code sample demonstrates the implementation:", [],
       lchars "\x7b\x7b< highlight csharp>\x7d\x7d",
       clean_code_for_docs code,
       lchars "\x7b\x7b< /highlight >\x7d\x7d"]
    if explOk then some (fm, joinNl parts) else none
  | _, _, _, _, _ => none

/-! ### Specification-side definitions, transcribed from the wording of the
spec for the refinement claims; these are compared against the definitions
translated from the source. -/

/-- Rule 1 of section 4.1: the path contains the examples root segment. -/
def specRuleRoot (p : Path) : Prop := lchars "Examples.Core" ∈ pathParts p

/-- Rule 2 of section 4.1: the compilation unit extension. -/
def specRuleExtension (p : Path) : Prop := pathSuffix p = lchars ".cs"

/-- Rule 3 of section 4.1: not the license helper, not a test file. -/
def specRuleNotExcluded (p : Path) : Prop :=
  pathName p ≠ lchars "LicenseHelper.cs" ∧
    containsSub (lchars "Test") (pathName p) = false

/-- Amended rule 4: at least one of the four category names occurs as a
substring of the path string. -/
def specRuleCategorySubstring (p : Path) : Prop :=
  ∃ cat ∈ valid_categories, containsSub cat (pathStr p) = true

/-- Number of path segments equal to one of the four category names, used
to state the original rule 4 (exactly one category name as a whole
segment). -/
def categorySegmentCount (p : Path) : Nat :=
  ((pathParts p).filter (fun s => valid_categories.contains s)).length

/-- The checklist of section 8: identifier substring and emitted label, in
the fixed order Code128, QR, DataMatrix, PDF417, Aztec. -/
def typeChecklist : List (Line × Line) :=
  [(lchars "EncodeTypes.Code128", lchars "Code128"),
   (lchars "EncodeTypes.QR", lchars "QR Code"),
   (lchars "EncodeTypes.DataMatrix", lchars "DataMatrix"),
   (lchars "EncodeTypes.PDF417", lchars "PDF417"),
   (lchars "EncodeTypes.Aztec", lchars "Aztec")]

/-- The barcode type list as the spec words it: exactly the labels of the
checklist whose identifier substring occurs in the code, in checklist
order. -/
def specBarcodeTypes (code : Line) : List Line :=
  (typeChecklist.filter (fun pr => containsSub pr.1 code)).map (fun pr => pr.2)

/-- The documentation path with its first two slash-separated segments
removed, as the implicit claim about the url words it. -/
def dropFirstTwoSegments (l : Line) : Line :=
  joinChar '/' ((splitChar '/' l).drop 2)

/-! ### Concrete inputs used by counterexamples and witnesses. -/

/-- A canonical scaffold whose method braces sit on their own lines. -/
def exScaffoldLines : List Line :=
  [lchars "public static class Foo",
   lchars "public static void Run()",
   lchars "\x7b",
   lchars "    x;",
   lchars "\x7d"]

/-- A scaffold whose opening brace shares the line with the entry point
signature, so that brace is never counted. -/
def exSameLineBraceLines : List Line :=
  [lchars "public static class Foo",
   lchars "public static void Run() \x7b",
   lchars "    x;",
   lchars "\x7d"]

/-- A source text with no entry point signature line. -/
def exNoRunLines : List Line :=
  [lchars "using System;",
   lchars "public static class Foo",
   lchars "\x7b",
   lchars "    int x;",
   lchars "\x7d"]

/-- The end-to-end scenario path of section 8. -/
def exPipelinePath : Path :=
  lchars "Examples.Core/Generation/BasicGenerationExample.cs"

/-- The end-to-end scenario source file, line by line. -/
def exPipelineLines : List Line :=
  [lchars "using System;",
   lchars "using Aspose.BarCode.Generation;",
   lchars "",
   lchars "namespace Examples.Core.Generation",
   lchars "\x7b",
   lchars "    public static class BasicGenerationExample",
   lchars "    \x7b",
   lchars "        public static void Run()",
   lchars "        \x7b",
   lchars "            var barcode = new BarcodeGenerator(EncodeTypes.Code128, \x2212345\x22);",
   lchars "            barcode.Save(\x22output.png\x22);",
   lchars "        \x7d",
   lchars "    \x7d",
   lchars "\x7d"]

/-- The end-to-end scenario source as one text. -/
def exPipelineCode : Line := joinNl exPipelineLines

/-- A path where the category name Reading occurs only inside a longer
segment, never as a whole segment. -/
def exSegmentlessPath : Path := lchars "Examples.Core/ReadingStuff/Demo.cs"

/-- A path accepted by classification whose derived category is Unknown. -/
def exUnknownCategoryPath : Path := lchars "Examples.Core/GenerationDemos/FooSample.cs"

/-- Code text containing exactly two of the five identifier substrings. -/
def exBarcodeCode : Line := lchars "EncodeTypes.QR plus EncodeTypes.Code128"

/-- A title consisting of the single character U+0130, whose full
lowercase mapping has two characters. -/
def exTurkishTitle : Line := ['\u0130']

/-- A parsed payload carrying only the title key. -/
def exPartialPayload : Payload := [(lchars "title", JVal.s (lchars "Basic"))]

/-- A service response text whose brace-delimited block is a JSON object
with only the title key. -/
def exServiceText : Line := lchars "Here\x7b \x22title\x22: \x22Basic\x22 \x7dend"

/-- The JSON parser outcome on the block of exServiceText, as json.loads
would produce it: an object with the single title key. -/
def exPartialParse : Line → Option Payload := fun _ => some exPartialPayload

/-! ## Theorems -/

/-! ### Helper lemmas on the string model -/

theorem isPrefixL_iff_append (p l : Line) :
    isPrefixL p l = true ↔ ∃ t, l = p ++ t := by
  induction p generalizing l with
  | nil => simp [isPrefixL]
  | cons a as ih =>
    cases l with
    | nil => simp [isPrefixL]
    | cons b bs =>
      simp only [isPrefixL, Bool.and_eq_true, decide_eq_true_eq, ih, List.cons_append,
        List.cons.injEq]
      constructor
      · rintro ⟨rfl, t, rfl⟩; exact ⟨t, rfl, rfl⟩
      · rintro ⟨t, rfl, rfl⟩; exact ⟨rfl, t, rfl⟩

theorem countChar_append (c : Char) (a b : Line) :
    countChar c (a ++ b) = countChar c a + countChar c b := by
  simp [countChar, List.filter_append]

theorem countChar_reverse (c : Char) (l : Line) :
    countChar c l.reverse = countChar c l := by
  simp [countChar, List.filter_reverse]

theorem countChar_dropWhile_ws (c : Char) (l : Line) (hc : isWs c = false) :
    countChar c (l.dropWhile isWs) = countChar c l := by
  induction l with
  | nil => rfl
  | cons a as ih =>
    by_cases ha : isWs a = true
    · have hne : ¬(a = c) := by rintro rfl; rw [ha] at hc; cases hc
      rw [List.dropWhile_cons_of_pos ha, ih]
      simp [countChar, List.filter_cons, hne]
    · rw [List.dropWhile_cons_of_neg ha]

theorem countChar_strip (c : Char) (l : Line) (hc : isWs c = false) :
    countChar c (strip l) = countChar c l := by
  unfold strip stripRight stripLeft
  rw [countChar_reverse, countChar_dropWhile_ws _ _ hc, countChar_reverse,
    countChar_dropWhile_ws _ _ hc]

theorem braceDelta_strip (l : Line) : braceDelta (strip l) = braceDelta l := by
  unfold braceDelta
  rw [countChar_strip _ _ (by decide), countChar_strip _ _ (by decide)]

theorem stripLeft_append_ws (a t : Line) (ha : ∀ c ∈ a, isWs c = true) :
    stripLeft (a ++ t) = stripLeft t := by
  induction a with
  | nil => rfl
  | cons c cs ih =>
    have hc : isWs c = true := ha c (List.mem_cons_self c cs)
    simp only [List.cons_append, stripLeft, List.dropWhile_cons_of_pos hc]
    exact ih (fun d hd => ha d (List.mem_cons_of_mem c hd))

theorem eightSpaces_ws : ∀ c ∈ eightSpaces, isWs c = true := by decide

theorem strip_adjustIndent (l : Line) : strip (adjustIndent l) = strip l := by
  unfold adjustIndent
  by_cases h : isPrefixL eightSpaces l = true
  · rw [if_pos h]
    obtain ⟨t, rfl⟩ := (isPrefixL_iff_append eightSpaces l).mp h
    have hdrop : (eightSpaces ++ t).drop 8 = t := List.drop_left eightSpaces t
    rw [hdrop]
    unfold strip
    rw [stripLeft_append_ws eightSpaces t eightSpaces_ws]
  · rw [if_neg h]

theorem braceDelta_adjustIndent (l : Line) :
    braceDelta (adjustIndent l) = braceDelta l := by
  unfold adjustIndent
  by_cases h : isPrefixL eightSpaces l = true
  · rw [if_pos h]
    obtain ⟨t, rfl⟩ := (isPrefixL_iff_append eightSpaces l).mp h
    have hdrop : (eightSpaces ++ t).drop 8 = t := List.drop_left eightSpaces t
    rw [hdrop]
    unfold braceDelta
    rw [countChar_append, countChar_append]
    have h1 : countChar obrace eightSpaces = 0 := by decide
    have h2 : countChar cbrace eightSpaces = 0 := by decide
    rw [h1, h2]
    simp
  · rw [if_neg h]

theorem braceDelta_of_blank (l : Line) (h : (strip l).isEmpty = true) :
    braceDelta l = 0 := by
  rw [← braceDelta_strip]
  rw [List.isEmpty_iff] at h
  rw [h]
  rfl

theorem braceSum_cons (l : Line) (ls : List Line) :
    braceSum (l :: ls) = braceDelta l + braceSum ls := by
  simp [braceSum]

theorem braceSum_dropWhile_blank (ls : List Line) :
    braceSum (ls.dropWhile (fun l => (strip l).isEmpty)) = braceSum ls := by
  induction ls with
  | nil => rfl
  | cons a as ih =>
    rw [List.dropWhile_cons]
    by_cases ha : ((strip a).isEmpty : Bool) = true
    · rw [if_pos ha, ih, braceSum_cons, braceDelta_of_blank a ha]
      simp
    · rw [if_neg ha]

theorem braceSum_reverse (ls : List Line) : braceSum ls.reverse = braceSum ls := by
  unfold braceSum
  rw [List.map_reverse, List.sum_reverse]

theorem braceSum_stripTrailingBlanks (ls : List Line) :
    braceSum (stripTrailingBlanks ls) = braceSum ls := by
  unfold stripTrailingBlanks
  rw [braceSum_reverse, braceSum_dropWhile_blank, braceSum_reverse]

theorem mem_stripTrailingBlanks (ls : List Line) (l : Line)
    (h : l ∈ stripTrailingBlanks ls) : l ∈ ls := by
  unfold stripTrailingBlanks at h
  rw [List.mem_reverse] at h
  have := (List.dropWhile_sublist (l := ls.reverse)
    (fun l => (strip l).isEmpty)).subset h
  rwa [List.mem_reverse] at this

theorem stripTrailingBlanks_eq_of_last (ls : List Line) (l : Line)
    (hlast : ls.getLast? = some l) (hl : (strip l).isEmpty = false) :
    stripTrailingBlanks ls = ls := by
  unfold stripTrailingBlanks
  have hrev : ls.reverse.head? = some l := by
    rw [List.head?_reverse]; exact hlast
  cases hr : ls.reverse with
  | nil => rw [hr] at hrev; cases hrev
  | cons a as =>
    rw [hr] at hrev
    have ha : a = l := by injection hrev
    subst ha
    rw [List.dropWhile_cons_of_neg (by rw [hl]; exact Bool.false_ne_true), ← hr,
      List.reverse_reverse]

/-- C1, counterexample: a service success whose parsed payload has only the
title key is returned as is by analyze_example_code, so the result misses
required keys and the fallback is not taken; this refutes the claim that a
payload missing required keys is replaced by the fallback result. The
parser argument models json.loads on the brace block of exServiceText. -/
theorem claim1_missing_keys_returned :
    hasRequiredKeys (analyze_example_code exPartialParse
      (ServiceOutcome.content exServiceText) [] exPipelinePath) = false := by
  decide

/-- C1 (amended): analyze_example_code returns the deterministic fallback
result, which carries all eight required keys, on the service-failure path;
on the service-success path with a brace block that parses, it returns the
parsed payload unchanged, with no required-key check. -/
theorem claim1_analyze_amended
    (jsonParse : Line → Option Payload) (code : Line) (file_path : Path) :
    analyze_example_code jsonParse ServiceOutcome.failure code file_path =
      fallback_analysis code file_path ∧
    hasRequiredKeys (fallback_analysis code file_path) = true ∧
    (∀ text block payload,
      extractJsonBlock text = some block →
      jsonParse block = some payload →
      analyze_example_code jsonParse (ServiceOutcome.content text) code file_path
        = payload) := by
  refine ⟨rfl, rfl, ?_⟩
  intro text block payload hb hp
  simp [analyze_example_code, hb, hp]

/-- C1 witness: the amended theorem applied at a concrete failure outcome
and at a concrete parsed success. -/
theorem claim1_analyze_amended_witness :
    hasRequiredKeys (fallback_analysis [] exPipelinePath) = true ∧
    analyze_example_code exPartialParse (ServiceOutcome.content exServiceText)
      [] exPipelinePath = exPartialPayload :=
  ⟨(claim1_analyze_amended exPartialParse [] exPipelinePath).2.1,
   (claim1_analyze_amended exPartialParse [] exPipelinePath).2.2
     exServiceText (lchars "\x7b \x22title\x22: \x22Basic\x22 \x7d")
     exPartialPayload (by decide) rfl⟩

/-- C5: the fallback barcode_types value equals, for every code text, the
checklist filtered to the identifiers literally present, labels taken in
checklist order; the field of the fallback payload is exactly that list;
and the example text with the QR and Code128 identifiers yields exactly the
two labels in checklist order. -/
theorem claim5_barcode_types :
    (∀ code : Line, fallbackBarcodeTypes code = specBarcodeTypes code) ∧
    (∀ code file_path, lookupKey (lchars "barcode_types")
      (fallback_analysis code file_path) = some (JVal.arr (fallbackBarcodeTypes code))) ∧
    fallbackBarcodeTypes exBarcodeCode = [lchars "Code128", lchars "QR Code"] := by
  refine ⟨?_, fun _ _ => rfl, by decide⟩
  intro code
  cases h1 : containsSub (lchars "EncodeTypes.Code128") code <;>
  cases h2 : containsSub (lchars "EncodeTypes.QR") code <;>
  cases h3 : containsSub (lchars "EncodeTypes.DataMatrix") code <;>
  cases h4 : containsSub (lchars "EncodeTypes.PDF417") code <;>
  cases h5 : containsSub (lchars "EncodeTypes.Aztec") code <;>
  simp [fallbackBarcodeTypes, specBarcodeTypes, typeChecklist, h1, h2, h3, h4, h5]

/-- C9: the path Examples.Core/GenerationDemos/FooSample.cs is accepted by
classification, because Generation occurs as a substring of the path
string, yet no path segment equals a category name, so the derived category
is Unknown. -/
theorem claim9_accepted_unknown_category :
    is_example_file exUnknownCategoryPath = true ∧
    (classify (fun _ => true) exUnknownCategoryPath).map (fun cf => cf.category)
      = some (lchars "Unknown") ∧
    (pathParts exUnknownCategoryPath).filter
      (fun s => valid_categories.contains s) = [] := by
  decide

/-- C4, counterexample: on the end-to-end scenario input with the service
unreachable, the fallback title is BasicGeneration, since removing the
literal substring Example from the stem BasicGenerationExample inserts no
space; the title claimed by the spec, with a space, is never produced. -/
theorem claim4_title_not_spaced :
    lookupKey (lchars "title") (fallback_analysis exPipelineCode exPipelinePath)
      ≠ some (JVal.s (lchars "Basic Generation")) ∧
    lookupKey (lchars "title") (fallback_analysis exPipelineCode exPipelinePath)
      = some (JVal.s (lchars "BasicGeneration")) := by
  decide

/-- C4 (amended): on the end-to-end scenario input with the service
unreachable, the analysis falls back for any parser, the front matter title
is BasicGeneration, the documentation path lies under the Generation
category prefix, and the body contains the fenced code block with the
extracted lines reindented by one scaffold indentation unit. -/
theorem claim4_scenario_amended :
    (∀ jsonParse, lookupKey (lchars "title")
      (analyze_example_code jsonParse ServiceOutcome.failure exPipelineCode exPipelinePath)
      = some (JVal.s (lchars "BasicGeneration"))) ∧
    lookupKey (lchars "category") (fallback_analysis exPipelineCode exPipelinePath)
      = some (JVal.s (lchars "Generation")) ∧
    ((generate_documentation_content (fallback_analysis exPipelineCode exPipelinePath)
        exPipelineCode).map (fun pr => lookupFM (lchars "title") pr.1))
      = some (some (FMVal.s (lchars "BasicGeneration"))) ∧
    determine_docs_path (lchars "Generation") (lchars "BasicGeneration")
      = lchars "net/developer-guide/barcode-generation/basicgeneration" ∧
    isPrefixL (lchars "net/developer-guide/barcode-generation/")
      (determine_docs_path (lchars "Generation") (lchars "BasicGeneration")) = true ∧
    ((generate_documentation_content (fallback_analysis exPipelineCode exPipelinePath)
        exPipelineCode).map (fun pr => containsSub
          (lchars "\x7b\x7b< highlight csharp>\x7d\x7d\n\x7b\n    var barcode = new BarcodeGenerator(EncodeTypes.Code128, \x2212345\x22);\n    barcode.Save(\x22output.png\x22);\n\x7d\n\x7b\x7b< /highlight >\x7d\x7d")
          pr.2))
      = some true := by
  refine ⟨fun jsonParse => ?_, by decide, by decide, by decide, by decide, by decide⟩
  have h : analyze_example_code jsonParse ServiceOutcome.failure exPipelineCode exPipelinePath
      = fallback_analysis exPipelineCode exPipelinePath := rfl
  rw [h]
  decide

/-! ### Branch equations for the extractor loop, one per continue or break
of the source loop. -/

theorem cleanGo_cons_import (s : CleanState) (line : Line) (rest : List Line)
    (h1 : (isPrefixL usingKw (strip line) || isPrefixL namespaceKw (strip line)) = true) :
    cleanGo s (line :: rest) = cleanGo s rest := by
  rw [cleanGo, if_pos h1]

theorem cleanGo_cons_blank (s : CleanState) (line : Line) (rest : List Line)
    (h1 : ¬(isPrefixL usingKw (strip line) || isPrefixL namespaceKw (strip line)) = true)
    (h2 : ((strip line).isEmpty && !s.inMethod) = true) :
    cleanGo s (line :: rest) = cleanGo s rest := by
  rw [cleanGo, if_neg h1, if_pos h2]

theorem cleanGo_cons_class (s : CleanState) (line : Line) (rest : List Line)
    (h1 : ¬(isPrefixL usingKw (strip line) || isPrefixL namespaceKw (strip line)) = true)
    (h2 : ¬((strip line).isEmpty && !s.inMethod) = true)
    (h3 : (containsSub classKw (strip line) && containsSub pubStaticClassKw (strip line)) = true) :
    cleanGo s (line :: rest) = cleanGo { s with inClass := true } rest := by
  rw [cleanGo, if_neg h1, if_neg h2, if_pos h3]

theorem cleanGo_cons_sig (s : CleanState) (line : Line) (rest : List Line)
    (h1 : ¬(isPrefixL usingKw (strip line) || isPrefixL namespaceKw (strip line)) = true)
    (h2 : ¬((strip line).isEmpty && !s.inMethod) = true)
    (h3 : ¬(containsSub classKw (strip line) && containsSub pubStaticClassKw (strip line)) = true)
    (h4 : (s.inClass && containsSub runSigKw (strip line)) = true) :
    cleanGo s (line :: rest) = cleanGo { s with inMethod := true } rest := by
  rw [cleanGo, if_neg h1, if_neg h2, if_neg h3, if_pos h4]

theorem cleanGo_cons_deadsig (s : CleanState) (line : Line) (rest : List Line)
    (h1 : ¬(isPrefixL usingKw (strip line) || isPrefixL namespaceKw (strip line)) = true)
    (h2 : ¬((strip line).isEmpty && !s.inMethod) = true)
    (h3 : ¬(containsSub classKw (strip line) && containsSub pubStaticClassKw (strip line)) = true)
    (h4 : ¬(s.inClass && containsSub runSigKw (strip line)) = true)
    (h5 : s.inMethod = true)
    (h6 : containsSub runSigKw (strip line) = true) :
    cleanGo s (line :: rest) = cleanGo { s with braceCount :=
      s.braceCount + (countChar obrace (strip line) : Int)
        - (countChar cbrace (strip line) : Int) } rest := by
  rw [cleanGo, if_neg h1, if_neg h2, if_neg h3, if_neg h4, if_pos h5]
  simp only [if_pos h6]

theorem cleanGo_cons_break (s : CleanState) (line : Line) (rest : List Line)
    (h1 : ¬(isPrefixL usingKw (strip line) || isPrefixL namespaceKw (strip line)) = true)
    (h2 : ¬((strip line).isEmpty && !s.inMethod) = true)
    (h3 : ¬(containsSub classKw (strip line) && containsSub pubStaticClassKw (strip line)) = true)
    (h4 : ¬(s.inClass && containsSub runSigKw (strip line)) = true)
    (h5 : s.inMethod = true)
    (h6 : ¬containsSub runSigKw (strip line) = true)
    (h7 : (decide (s.braceCount + (countChar obrace (strip line) : Int)
        - (countChar cbrace (strip line) : Int) ≤ 0)
        && endsWithChar cbrace (strip line)) = true) :
    cleanGo s (line :: rest) =
      ([if (strip line).isEmpty then ([] : Line) else adjustIndent line], true) := by
  rw [cleanGo, if_neg h1, if_neg h2, if_neg h3, if_neg h4, if_pos h5]
  simp only [if_neg h6, if_pos h7]

theorem cleanGo_cons_emit (s : CleanState) (line : Line) (rest : List Line)
    (h1 : ¬(isPrefixL usingKw (strip line) || isPrefixL namespaceKw (strip line)) = true)
    (h2 : ¬((strip line).isEmpty && !s.inMethod) = true)
    (h3 : ¬(containsSub classKw (strip line) && containsSub pubStaticClassKw (strip line)) = true)
    (h4 : ¬(s.inClass && containsSub runSigKw (strip line)) = true)
    (h5 : s.inMethod = true)
    (h6 : ¬containsSub runSigKw (strip line) = true)
    (h7 : ¬(decide (s.braceCount + (countChar obrace (strip line) : Int)
        - (countChar cbrace (strip line) : Int) ≤ 0)
        && endsWithChar cbrace (strip line)) = true) :
    cleanGo s (line :: rest) =
      ((if (strip line).isEmpty then ([] : Line) else adjustIndent line) ::
        (cleanGo { s with braceCount := s.braceCount + (countChar obrace (strip line) : Int)
          - (countChar cbrace (strip line) : Int) } rest).1,
       (cleanGo { s with braceCount := s.braceCount + (countChar obrace (strip line) : Int)
          - (countChar cbrace (strip line) : Int) } rest).2) := by
  rw [cleanGo, if_neg h1, if_neg h2, if_neg h3, if_neg h4, if_pos h5]
  simp only [if_neg h6, if_neg h7]

theorem cleanGo_cons_other (s : CleanState) (line : Line) (rest : List Line)
    (h1 : ¬(isPrefixL usingKw (strip line) || isPrefixL namespaceKw (strip line)) = true)
    (h2 : ¬((strip line).isEmpty && !s.inMethod) = true)
    (h3 : ¬(containsSub classKw (strip line) && containsSub pubStaticClassKw (strip line)) = true)
    (h4 : ¬(s.inClass && containsSub runSigKw (strip line)) = true)
    (h5 : ¬s.inMethod = true) :
    cleanGo s (line :: rest) = cleanGo s rest := by
  rw [cleanGo, if_neg h1, if_neg h2, if_neg h3, if_neg h4, if_neg h5]

/-! ### Extractor loop invariants -/


theorem endsWithChar_ne_empty (c : Char) (l : Line) (h : endsWithChar c l = true) :
    l.isEmpty = false := by
  cases l with
  | nil => cases h
  | cons a as => rfl

theorem cleanGo_stop_last : ∀ (lines : List Line) (s : CleanState),
    (cleanGo s lines).2 = true →
    ∃ l, ((cleanGo s lines).1).getLast? = some l ∧
      endsWithChar cbrace (strip l) = true ∧ (strip l).isEmpty = false := by
  intro lines
  induction lines with
  | nil => intro s h; simp [cleanGo] at h
  | cons line rest ih =>
    intro s h
    by_cases h1 : (isPrefixL usingKw (strip line) || isPrefixL namespaceKw (strip line)) = true
    · rw [cleanGo_cons_import s line rest h1] at h ⊢; exact ih s h
    by_cases h2 : ((strip line).isEmpty && !s.inMethod) = true
    · rw [cleanGo_cons_blank s line rest h1 h2] at h ⊢; exact ih s h
    by_cases h3 : (containsSub classKw (strip line) && containsSub pubStaticClassKw (strip line)) = true
    · rw [cleanGo_cons_class s line rest h1 h2 h3] at h ⊢; exact ih _ h
    by_cases h4 : (s.inClass && containsSub runSigKw (strip line)) = true
    · rw [cleanGo_cons_sig s line rest h1 h2 h3 h4] at h ⊢; exact ih _ h
    by_cases h5 : s.inMethod = true
    · by_cases h6 : containsSub runSigKw (strip line) = true
      · rw [cleanGo_cons_deadsig s line rest h1 h2 h3 h4 h5 h6] at h ⊢; exact ih _ h
      by_cases h7 : (decide (s.braceCount + (countChar obrace (strip line) : Int)
          - (countChar cbrace (strip line) : Int) ≤ 0)
          && endsWithChar cbrace (strip line)) = true
      · rw [cleanGo_cons_break s line rest h1 h2 h3 h4 h5 h6 h7]
        have hends : endsWithChar cbrace (strip line) = true :=
          ((Bool.and_eq_true _ _).mp h7).2
        have hne : (strip line).isEmpty = false := endsWithChar_ne_empty _ _ hends
        have hnee : ¬((strip line).isEmpty = true) := by simp [hne]
        refine ⟨adjustIndent line, ?_, ?_, ?_⟩
        · rw [if_neg hnee]; rfl
        · rw [strip_adjustIndent]; exact hends
        · rw [strip_adjustIndent]; exact hne
      · rw [cleanGo_cons_emit s line rest h1 h2 h3 h4 h5 h6 h7] at h ⊢
        obtain ⟨l, hl, he, hne⟩ := ih _ h
        refine ⟨l, ?_, he, hne⟩
        cases hcg : (cleanGo { s with braceCount := s.braceCount + (countChar obrace (strip line) : Int)
            - (countChar cbrace (strip line) : Int) } rest).1 with
        | nil => rw [hcg] at hl; cases hl
        | cons b bs =>
          rw [hcg] at hl
          simp only [List.getLast?_cons_cons]
          exact hl
    · rw [cleanGo_cons_other s line rest h1 h2 h3 h4 h5] at h ⊢; exact ih s h

theorem cleanGo_no_imports : ∀ (lines : List Line) (s : CleanState) (l : Line),
    l ∈ (cleanGo s lines).1 →
    isPrefixL usingKw (strip l) = false ∧ isPrefixL namespaceKw (strip l) = false := by
  intro lines
  induction lines with
  | nil => intro s l hl; simp [cleanGo] at hl
  | cons line rest ih =>
    intro s l hl
    by_cases h1 : (isPrefixL usingKw (strip line) || isPrefixL namespaceKw (strip line)) = true
    · rw [cleanGo_cons_import s line rest h1] at hl; exact ih s l hl
    have hsplit : isPrefixL usingKw (strip line) = false ∧
        isPrefixL namespaceKw (strip line) = false := by
      constructor <;>
        · cases hb : isPrefixL usingKw (strip line) <;>
            cases hc : isPrefixL namespaceKw (strip line) <;>
            simp_all
    by_cases h2 : ((strip line).isEmpty && !s.inMethod) = true
    · rw [cleanGo_cons_blank s line rest h1 h2] at hl; exact ih s l hl
    by_cases h3 : (containsSub classKw (strip line) && containsSub pubStaticClassKw (strip line)) = true
    · rw [cleanGo_cons_class s line rest h1 h2 h3] at hl; exact ih _ l hl
    by_cases h4 : (s.inClass && containsSub runSigKw (strip line)) = true
    · rw [cleanGo_cons_sig s line rest h1 h2 h3 h4] at hl; exact ih _ l hl
    by_cases h5 : s.inMethod = true
    · by_cases h6 : containsSub runSigKw (strip line) = true
      · rw [cleanGo_cons_deadsig s line rest h1 h2 h3 h4 h5 h6] at hl; exact ih _ l hl
      by_cases h7 : (decide (s.braceCount + (countChar obrace (strip line) : Int)
          - (countChar cbrace (strip line) : Int) ≤ 0)
          && endsWithChar cbrace (strip line)) = true
      · rw [cleanGo_cons_break s line rest h1 h2 h3 h4 h5 h6 h7] at hl
        have : l = if (strip line).isEmpty then ([] : Line) else adjustIndent line := by
          simpa using hl
        subst this
        by_cases hb : ((strip line).isEmpty : Bool) = true
        · rw [if_pos hb]; constructor <;> rfl
        · rw [if_neg hb, strip_adjustIndent]; exact hsplit
      · rw [cleanGo_cons_emit s line rest h1 h2 h3 h4 h5 h6 h7] at hl
        rcases List.mem_cons.mp hl with heq | hmem
        · subst heq
          by_cases hb : ((strip line).isEmpty : Bool) = true
          · rw [if_pos hb]; constructor <;> rfl
          · rw [if_neg hb, strip_adjustIndent]; exact hsplit
        · exact ih _ l hmem
    · rw [cleanGo_cons_other s line rest h1 h2 h3 h4 h5] at hl; exact ih s l hl

theorem cleanGo_stop_braceSum : ∀ (lines : List Line) (s : CleanState),
    (s.inMethod = true → s.inClass = true) →
    (cleanGo s lines).2 = true →
    s.braceCount + braceSum (cleanGo s lines).1 ≤ 0 := by
  intro lines
  induction lines with
  | nil => intro s _ h; simp [cleanGo] at h
  | cons line rest ih =>
    intro s hinv h
    by_cases h1 : (isPrefixL usingKw (strip line) || isPrefixL namespaceKw (strip line)) = true
    · rw [cleanGo_cons_import s line rest h1] at h ⊢; exact ih s hinv h
    by_cases h2 : ((strip line).isEmpty && !s.inMethod) = true
    · rw [cleanGo_cons_blank s line rest h1 h2] at h ⊢; exact ih s hinv h
    by_cases h3 : (containsSub classKw (strip line) && containsSub pubStaticClassKw (strip line)) = true
    · rw [cleanGo_cons_class s line rest h1 h2 h3] at h ⊢
      exact ih { s with inClass := true } (fun _ => rfl) h
    by_cases h4 : (s.inClass && containsSub runSigKw (strip line)) = true
    · rw [cleanGo_cons_sig s line rest h1 h2 h3 h4] at h ⊢
      exact ih { s with inMethod := true }
        (fun _ => ((Bool.and_eq_true _ _).mp h4).1) h
    by_cases h5 : s.inMethod = true
    · have hclass : s.inClass = true := hinv h5
      by_cases h6 : containsSub runSigKw (strip line) = true
      · exact absurd (by rw [hclass, h6]; rfl) h4
      by_cases h7 : (decide (s.braceCount + (countChar obrace (strip line) : Int)
          - (countChar cbrace (strip line) : Int) ≤ 0)
          && endsWithChar cbrace (strip line)) = true
      · rw [cleanGo_cons_break s line rest h1 h2 h3 h4 h5 h6 h7]
        have hends : endsWithChar cbrace (strip line) = true :=
          ((Bool.and_eq_true _ _).mp h7).2
        have hle : s.braceCount + (countChar obrace (strip line) : Int)
            - (countChar cbrace (strip line) : Int) ≤ 0 :=
          of_decide_eq_true ((Bool.and_eq_true _ _).mp h7).1
        have hne : (strip line).isEmpty = false := endsWithChar_ne_empty _ _ hends
        have hnee : ¬((strip line).isEmpty = true) := by simp [hne]
        rw [if_neg hnee]
        rw [braceSum_cons]
        have hdelta : braceDelta (adjustIndent line) =
            (countChar obrace (strip line) : Int) - (countChar cbrace (strip line) : Int) := by
          rw [braceDelta_adjustIndent, ← braceDelta_strip]; rfl
        rw [hdelta]
        simp only [braceSum, List.map_nil, List.sum_nil]
        omega
      · rw [cleanGo_cons_emit s line rest h1 h2 h3 h4 h5 h6 h7] at h ⊢
        have hrec : s.braceCount + (countChar obrace (strip line) : Int)
            - (countChar cbrace (strip line) : Int)
            + braceSum (cleanGo { s with braceCount :=
                s.braceCount + (countChar obrace (strip line) : Int)
                - (countChar cbrace (strip line) : Int) } rest).1 ≤ 0 :=
          ih { s with braceCount := s.braceCount + (countChar obrace (strip line) : Int)
            - (countChar cbrace (strip line) : Int) } (fun _ => hclass) h
        rw [braceSum_cons]
        by_cases hb : ((strip line).isEmpty : Bool) = true
        · rw [if_pos hb]
          have hz : braceDelta ([] : Line) = 0 := rfl
          rw [hz]
          have hsz : (countChar obrace (strip line) : Int)
              - (countChar cbrace (strip line) : Int) = 0 := by
            rw [List.isEmpty_iff] at hb
            rw [hb]
            rfl
          omega
        · rw [if_neg hb]
          have hdelta : braceDelta (adjustIndent line) =
              (countChar obrace (strip line) : Int) - (countChar cbrace (strip line) : Int) := by
            rw [braceDelta_adjustIndent, ← braceDelta_strip]; rfl
          rw [hdelta]
          omega
    · rw [cleanGo_cons_other s line rest h1 h2 h3 h4 h5] at h ⊢; exact ih s hinv h



theorem cleanGo_noRun : ∀ (lines : List Line) (s : CleanState),
    s.inMethod = false →
    (∀ l ∈ lines, containsSub runSigKw (strip l) = false) →
    cleanGo s lines = ([], false) := by
  intro lines
  induction lines with
  | nil => intro s _ _; rfl
  | cons line rest ih =>
    intro s hm h
    have hline : containsSub runSigKw (strip line) = false :=
      h line (List.mem_cons_self line rest)
    have hrest : ∀ l ∈ rest, containsSub runSigKw (strip l) = false :=
      fun l hl => h l (List.mem_cons_of_mem line hl)
    rw [cleanGo]
    simp only [hline, Bool.and_false, hm]
    split_ifs <;> first
      | exact ih s hm hrest
      | exact ih { s with inClass := true } hm hrest
      | simp_all

/-- C2, counterexample: on a canonical scaffold the loop appends the final
closing line before breaking, so the emitted sequence does end with that
closing line, refuting the claim that it is not included. -/
theorem claim2_final_line_emitted :
    (cleanGo initClean exScaffoldLines).2 = true ∧
    cleanLines exScaffoldLines = [[obrace], lchars "    x;", [cbrace]] := by
  decide

/-- C2 (amended): whenever the extractor loop terminates through the
closing-brace stop condition, the final closing line is included, after
indentation adjustment, as the last element of the extracted sequence; its
trimmed content ends with a closing brace. -/
theorem claim2_stop_includes_closing (lines : List Line)
    (h : (cleanGo initClean lines).2 = true) :
    ∃ l, (cleanLines lines).getLast? = some l ∧
      endsWithChar cbrace (strip l) = true := by
  obtain ⟨l, hl, he, hne⟩ := cleanGo_stop_last lines initClean h
  refine ⟨l, ?_, he⟩
  unfold cleanLines
  rw [stripTrailingBlanks_eq_of_last _ _ hl hne]
  exact hl

/-- C2 witness: the amended theorem applied to the concrete scaffold. -/
theorem claim2_stop_includes_closing_witness :
    (cleanGo initClean exScaffoldLines).2 = true ∧
    ∃ l, (cleanLines exScaffoldLines).getLast? = some l ∧
      endsWithChar cbrace (strip l) = true :=
  ⟨by decide, claim2_stop_includes_closing exScaffoldLines (by decide)⟩

/-- C7: when no line of the source text contains the canonical entry point
signature in its trimmed content, the extractor returns the empty sequence;
the extractor is a total function, so no exception is possible. -/
theorem claim7_no_entry_empty (lines : List Line)
    (h : ∀ l ∈ lines, containsSub runSigKw (strip l) = false) :
    cleanLines lines = [] := by
  unfold cleanLines
  rw [cleanGo_noRun lines initClean rfl h]
  rfl

/-- C7 witness: the theorem applied to a concrete text without the entry
point signature. -/
theorem claim7_no_entry_empty_witness :
    (∀ l ∈ exNoRunLines, containsSub runSigKw (strip l) = false) ∧
    cleanLines exNoRunLines = [] :=
  ⟨by decide, claim7_no_entry_empty exNoRunLines (by decide)⟩

/-- C6, counterexample: a scaffold whose opening brace shares the line with
the entry point signature; that line is skipped without brace counting, so
the loop still stops through the closing-brace condition but the brace
count over the emitted body ends at minus one, not zero, refuting the claim
that it returns to exactly zero. -/
theorem claim6_brace_trace_negative :
    containsSub runSigKw (strip (lchars "public static void Run() \x7b")) = true ∧
    (cleanGo initClean exSameLineBraceLines).2 = true ∧
    braceSum (cleanLines exSameLineBraceLines) = -1 := by
  decide

/-- C6 (amended): for every source text, the extracted sequence never
contains an import-like or namespace-like declaration line; and whenever
the loop terminates through the closing-brace stop condition, the
brace-depth count over the emitted body returns to a value at most zero,
though not necessarily exactly zero. -/
theorem claim6_extract_amended (lines : List Line) :
    (∀ l ∈ cleanLines lines,
      isPrefixL usingKw (strip l) = false ∧ isPrefixL namespaceKw (strip l) = false) ∧
    ((cleanGo initClean lines).2 = true → braceSum (cleanLines lines) ≤ 0) := by
  constructor
  · intro l hl
    exact cleanGo_no_imports lines initClean l
      (mem_stripTrailingBlanks (cleanGo initClean lines).1 l hl)
  · intro h
    unfold cleanLines
    rw [braceSum_stripTrailingBlanks]
    have := cleanGo_stop_braceSum lines initClean (by intro hc; cases hc) h
    simpa [initClean] using this

/-- C6 witness: the amended theorem applied to the concrete scaffold. -/
theorem claim6_extract_amended_witness :
    (cleanGo initClean exScaffoldLines).2 = true ∧
    braceSum (cleanLines exScaffoldLines) ≤ 0 :=
  ⟨by decide, (claim6_extract_amended exScaffoldLines).2 (by decide)⟩



/-- C3, counterexample: the path Examples.Core/ReadingStuff/Demo.cs is
accepted by classification although no path segment equals a category name,
because the source tests the category names as substrings of the whole path
string; this refutes the claimed necessary condition that the path contain
exactly one category name as a path segment. -/
theorem claim3_substring_not_segment :
    (classify (fun _ => true) exSegmentlessPath).isSome = true ∧
    categorySegmentCount exSegmentlessPath = 0 := by
  decide

/-- C3 (amended): classification accepts a path exactly when the path has
the examples root segment, the .cs suffix, is neither the license helper
nor a test file, has at least one of the four category names occurring as a
substring of the path string (not necessarily as a whole segment, and not
necessarily exactly one), and exists on disk. -/
theorem claim3_classify_iff (fsExists : Path → Bool) (p : Path) :
    (classify fsExists p).isSome = true ↔
      (specRuleRoot p ∧ specRuleExtension p ∧ specRuleNotExcluded p ∧
        specRuleCategorySubstring p ∧ fsExists p = true) := by
  have hbase : (classify fsExists p).isSome = true ↔
      (is_example_file p && fsExists p) = true := by
    unfold classify
    split_ifs with h <;> simp [h]
  rw [hbase]
  unfold is_example_file specRuleRoot specRuleExtension specRuleNotExcluded
    specRuleCategorySubstring
  simp only [Bool.and_eq_true, List.any_eq_true, decide_eq_true_eq,
    Bool.not_eq_true', Bool.not_eq_true, and_assoc, exists_eq_right,
    decide_eq_false_iff_not]



/-! ### Split and join lemmas for the url computation -/

theorem dropWhile_append_sep (sep : Char) (a b : Line) (ha : ∀ c ∈ a, ¬c = sep) :
    (a ++ sep :: b).dropWhile (fun c => c ≠ sep) = sep :: b := by
  induction a with
  | nil => simp [List.dropWhile_cons]
  | cons x xs ih =>
    rw [List.cons_append, List.dropWhile_cons]
    rw [if_pos (by simpa using ha x (List.mem_cons_self x xs))]
    exact ih (fun c hc => ha c (List.mem_cons_of_mem x hc))

theorem takeWhile_append_sep (sep : Char) (a b : Line) (ha : ∀ c ∈ a, ¬c = sep) :
    (a ++ sep :: b).takeWhile (fun c => c ≠ sep) = a := by
  induction a with
  | nil => simp [List.takeWhile_cons]
  | cons x xs ih =>
    rw [List.cons_append, List.takeWhile_cons]
    rw [if_pos (by simpa using ha x (List.mem_cons_self x xs))]
    rw [ih (fun c hc => ha c (List.mem_cons_of_mem x hc))]

theorem splitFirst_append (sep : Char) (a b : Line) (ha : ∀ c ∈ a, ¬c = sep) :
    splitFirst sep (a ++ sep :: b) = some (a, b) := by
  unfold splitFirst
  rw [dropWhile_append_sep sep a b ha, takeWhile_append_sep sep a b ha]

theorem splitChar_ne_nil (sep : Char) (l : Line) : splitChar sep l ≠ [] := by
  cases l with
  | nil => simp [splitChar]
  | cons c rest =>
    rw [splitChar]
    split_ifs
    · simp
    · cases h : splitChar sep rest <;> simp

theorem splitChar_append (sep : Char) (a b : Line) (ha : ∀ c ∈ a, ¬c = sep) :
    splitChar sep (a ++ sep :: b) = a :: splitChar sep b := by
  induction a with
  | nil =>
    rw [List.nil_append, splitChar, if_pos rfl]
  | cons x xs ih =>
    rw [List.cons_append, splitChar]
    rw [if_neg (ha x (List.mem_cons_self x xs))]
    rw [ih (fun c hc => ha c (List.mem_cons_of_mem x hc))]

theorem joinChar_splitChar (sep : Char) (l : Line) :
    joinChar sep (splitChar sep l) = l := by
  induction l with
  | nil => rfl
  | cons c rest ih =>
    rw [splitChar]
    split_ifs with hc
    · subst hc
      cases hs : splitChar c rest with
      | nil => exact absurd hs (splitChar_ne_nil c rest)
      | cons x xs =>
        rw [joinChar]
        rw [← hs, ih]
        simp
    · cases hs : splitChar sep rest with
      | nil => exact absurd hs (splitChar_ne_nil sep rest)
      | cons x xs =>
        rw [hs] at ih
        cases xs with
        | nil =>
          rw [joinChar]
          rw [joinChar] at ih
          rw [ih]
        | cons y ys =>
          rw [joinChar]
          rw [joinChar] at ih
          simp only [List.cons_append]
          rw [ih]

theorem pySplitMax_two_last (a b rest : Line)
    (ha : ∀ c ∈ a, ¬c = '/') (hb : ∀ c ∈ b, ¬c = '/') :
    (pySplitMax '/' 2 (a ++ '/' :: (b ++ '/' :: rest))).getLastD [] = rest := by
  have h1 : splitFirst '/' (a ++ '/' :: (b ++ '/' :: rest))
      = some (a, b ++ '/' :: rest) := splitFirst_append _ _ _ ha
  have h2 : splitFirst '/' (b ++ '/' :: rest) = some (b, rest) :=
    splitFirst_append _ _ _ hb
  show (pySplitMax '/' (1 + 1) (a ++ '/' :: (b ++ '/' :: rest))).getLastD [] = rest
  simp only [pySplitMax, h1, h2, List.getLastD]
  rfl

theorem dropTwoSegments_append (a b rest : Line)
    (ha : ∀ c ∈ a, ¬c = '/') (hb : ∀ c ∈ b, ¬c = '/') :
    dropFirstTwoSegments (a ++ '/' :: (b ++ '/' :: rest)) = rest := by
  unfold dropFirstTwoSegments
  rw [splitChar_append _ _ _ ha, splitChar_append _ _ _ hb]
  simp only [List.drop_succ_cons, List.drop_zero]
  exact joinChar_splitChar '/' rest

theorem categoryBasePath_cases (c : Line) :
    categoryBasePath c = lchars "net/developer-guide/barcode-generation" ∨
    categoryBasePath c = lchars "net/developer-guide/barcode-reading" ∨
    categoryBasePath c = lchars "net/developer-guide/barcode-appearance" ∨
    categoryBasePath c = lchars "net/developer-guide/advanced-features" ∨
    categoryBasePath c = lchars "net/developer-guide" := by
  unfold categoryBasePath category_map
  by_cases h1 : lchars "Generation" = c
  · simp [List.find?, h1]
  by_cases h2 : lchars "Reading" = c
  · simp [List.find?, h1, h2]
  by_cases h3 : lchars "Formatting" = c
  · simp [List.find?, h1, h2, h3]
  by_cases h4 : lchars "Advanced" = c
  · simp [List.find?, h1, h2, h3, h4]
  · simp [List.find?, h1, h2, h3, h4]

theorem fmUrl_eq_dropTwo (category title : Line) :
    fmUrl category title
      = lchars "/net/" ++ dropFirstTwoSegments (determine_docs_path category title) ++ ['/'] := by
  unfold fmUrl determine_docs_path
  rcases categoryBasePath_cases category with h | h | h | h | h <;> rw [h]
  · have hX : lchars "net/developer-guide/barcode-generation" ++ '/' :: slugify title
        = lchars "net" ++ '/' :: (lchars "developer-guide" ++ '/' ::
            (lchars "barcode-generation" ++ '/' :: slugify title)) := rfl
    rw [hX, pySplitMax_two_last _ _ _ (by decide) (by decide),
      dropTwoSegments_append _ _ _ (by decide) (by decide)]
  · have hX : lchars "net/developer-guide/barcode-reading" ++ '/' :: slugify title
        = lchars "net" ++ '/' :: (lchars "developer-guide" ++ '/' ::
            (lchars "barcode-reading" ++ '/' :: slugify title)) := rfl
    rw [hX, pySplitMax_two_last _ _ _ (by decide) (by decide),
      dropTwoSegments_append _ _ _ (by decide) (by decide)]
  · have hX : lchars "net/developer-guide/barcode-appearance" ++ '/' :: slugify title
        = lchars "net" ++ '/' :: (lchars "developer-guide" ++ '/' ::
            (lchars "barcode-appearance" ++ '/' :: slugify title)) := rfl
    rw [hX, pySplitMax_two_last _ _ _ (by decide) (by decide),
      dropTwoSegments_append _ _ _ (by decide) (by decide)]
  · have hX : lchars "net/developer-guide/advanced-features" ++ '/' :: slugify title
        = lchars "net" ++ '/' :: (lchars "developer-guide" ++ '/' ::
            (lchars "advanced-features" ++ '/' :: slugify title)) := rfl
    rw [hX, pySplitMax_two_last _ _ _ (by decide) (by decide),
      dropTwoSegments_append _ _ _ (by decide) (by decide)]
  · have hX : lchars "net/developer-guide" ++ '/' :: slugify title
        = lchars "net" ++ '/' :: (lchars "developer-guide" ++ '/' :: slugify title) := rfl
    rw [hX, pySplitMax_two_last _ _ _ (by decide) (by decide),
      dropTwoSegments_append _ _ _ (by decide) (by decide)]

/-- C10: the front matter url is /net/ followed by the documentation path
with its first two segments removed, followed by a trailing slash; in
particular for each of the four known categories, the url omits the
developer-guide segment that the output path contains. -/
theorem claim10_url_drops_segments (title description keywords category : Line) :
    lookupFM (lchars "url") (buildFrontMatter title description keywords category)
      = some (FMVal.s (fmUrl category title)) ∧
    fmUrl category title
      = lchars "/net/" ++ dropFirstTwoSegments (determine_docs_path category title) ++ ['/'] ∧
    fmUrl (lchars "Generation") title
      = lchars "/net/barcode-generation/" ++ slugify title ++ ['/'] ∧
    fmUrl (lchars "Reading") title
      = lchars "/net/barcode-reading/" ++ slugify title ++ ['/'] ∧
    fmUrl (lchars "Formatting") title
      = lchars "/net/barcode-appearance/" ++ slugify title ++ ['/'] ∧
    fmUrl (lchars "Advanced") title
      = lchars "/net/advanced-features/" ++ slugify title ++ ['/'] := by
  refine ⟨rfl, fmUrl_eq_dropTwo category title, ?_, ?_, ?_, ?_⟩
  · show lchars "/net/" ++ (pySplitMax '/' 2 (lchars "net" ++ '/' ::
        (lchars "developer-guide" ++ '/' :: (lchars "barcode-generation" ++ '/' ::
          slugify title)))).getLastD [] ++ ['/'] = _
    rw [pySplitMax_two_last _ _ _ (by decide) (by decide)]
    rfl
  · show lchars "/net/" ++ (pySplitMax '/' 2 (lchars "net" ++ '/' ::
        (lchars "developer-guide" ++ '/' :: (lchars "barcode-reading" ++ '/' ::
          slugify title)))).getLastD [] ++ ['/'] = _
    rw [pySplitMax_two_last _ _ _ (by decide) (by decide)]
    rfl
  · show lchars "/net/" ++ (pySplitMax '/' 2 (lchars "net" ++ '/' ::
        (lchars "developer-guide" ++ '/' :: (lchars "barcode-appearance" ++ '/' ::
          slugify title)))).getLastD [] ++ ['/'] = _
    rw [pySplitMax_two_last _ _ _ (by decide) (by decide)]
    rfl
  · show lchars "/net/" ++ (pySplitMax '/' 2 (lchars "net" ++ '/' ::
        (lchars "developer-guide" ++ '/' :: (lchars "advanced-features" ++ '/' ::
          slugify title)))).getLastD [] ++ ['/'] = _
    rw [pySplitMax_two_last _ _ _ (by decide) (by decide)]
    rfl



/-! ### Character class and collapse lemmas for the slug -/

theorem charOfNat_toNat (n : Nat) (h1 : 97 ≤ n) (h2 : n ≤ 122) :
    (Char.ofNat n).toNat = n := by
  have hv : n.isValidChar := Or.inl (by omega)
  simp [Char.ofNat, hv, Char.ofNatAux, Char.toNat, UInt32.ofNat', UInt32.toNat,
    BitVec.ofNatLt]

theorem toLower_toNat (c : Char) :
    (Char.toLower c).toNat =
      if 65 ≤ c.toNat ∧ c.toNat ≤ 90 then c.toNat + 32 else c.toNat := by
  unfold Char.toLower
  by_cases h : 65 ≤ c.toNat ∧ c.toNat ≤ 90
  · rw [if_pos h, if_pos ⟨h.1, h.2⟩]
    exact charOfNat_toNat (c.toNat + 32) (by omega) (by omega)
  · rw [if_neg h, if_neg (fun hc => h ⟨hc.1, hc.2⟩)]

theorem toLower_of_not_upper (c : Char) (h : ¬(65 ≤ c.toNat ∧ c.toNat ≤ 90)) :
    Char.toLower c = c := by
  unfold Char.toLower
  rw [if_neg (fun hc => h ⟨hc.1, hc.2⟩)]

theorem toLower_idem (c : Char) :
    Char.toLower (Char.toLower c) = Char.toLower c := by
  by_cases h : 65 ≤ c.toNat ∧ c.toNat ≤ 90
  · apply toLower_of_not_upper
    rw [toLower_toNat, if_pos h]
    omega
  · rw [toLower_of_not_upper c h, toLower_of_not_upper c h]


theorem isWordChar_toLower (c : Char) (h : isWordChar c = true) :
    isWordChar (Char.toLower c) = true := by
  by_cases hu : 65 ≤ c.toNat ∧ c.toNat ≤ 90
  · simp only [isWordChar, toLower_toNat, if_pos hu, Bool.or_eq_true,
      Bool.and_eq_true, decide_eq_true_eq]
    omega
  · rw [toLower_of_not_upper c hu]; exact h

theorem isRunChar_toLower (c : Char) :
    isRunChar (Char.toLower c) = isRunChar c := by
  by_cases hu : 65 ≤ c.toNat ∧ c.toNat ≤ 90
  · have h1 : isRunChar (Char.toLower c) = false := by
      simp only [isRunChar, isWs, toLower_toNat, if_pos hu, Bool.or_eq_false_iff,
        decide_eq_false_iff_not]
      omega
    have h2 : isRunChar c = false := by
      simp only [isRunChar, isWs, Bool.or_eq_false_iff, decide_eq_false_iff_not]
      omega
    rw [h1, h2]
  · rw [toLower_of_not_upper c hu]

theorem isRunChar_of_word (c : Char) (h : isWordChar c = true) :
    isRunChar c = false := by
  simp only [isWordChar, Bool.or_eq_true, Bool.and_eq_true, decide_eq_true_eq] at h
  simp only [isRunChar, isWs, Bool.or_eq_false_iff, decide_eq_false_iff_not]
  omega

theorem isWs_of_word (c : Char) (h : isWordChar c = true) : isWs c = false := by
  simp only [isWordChar, Bool.or_eq_true, Bool.and_eq_true, decide_eq_true_eq] at h
  simp only [isWs, Bool.or_eq_false_iff, decide_eq_false_iff_not]
  omega

theorem isSlugKeep_of_word (c : Char) (h : isWordChar c = true) :
    isSlugKeep c = true := by
  simp only [isSlugKeep, Bool.or_eq_true]
  exact Or.inl (Or.inl h)

theorem word_of_slugKeep_not_run (c : Char) (hk : isSlugKeep c = true)
    (hr : isRunChar c = false) : isWordChar c = true := by
  simp only [isSlugKeep, Bool.or_eq_true] at hk
  simp only [isRunChar, Bool.or_eq_false_iff] at hr
  rcases hk with (hw | hws) | h45
  · exact hw
  · rw [hws] at hr; simp at hr
  · rw [h45] at hr; simp at hr


theorem mem_collapseGo_chars : ∀ (l : Line) (b : Bool),
    (∀ c ∈ l, isSlugKeep c = true) →
    ∀ x ∈ collapseGo b l, isWordChar x = true ∨ x = '-' := by
  intro l
  induction l with
  | nil => intro b _ x hx; cases hx
  | cons c rest ih =>
    intro b h x hx
    have hc : isSlugKeep c = true := h c (List.mem_cons_self c rest)
    have hrest : ∀ d ∈ rest, isSlugKeep d = true :=
      fun d hd => h d (List.mem_cons_of_mem c hd)
    rw [collapseGo] at hx
    by_cases hr : isRunChar c = true
    · rw [if_pos hr] at hx
      cases b with
      | true => exact ih true hrest x hx
      | false =>
        simp only [Bool.false_eq_true, if_false] at hx
        rcases List.mem_cons.mp hx with heq | hmem
        · exact Or.inr heq
        · exact ih true hrest x hmem
    · rw [if_neg hr] at hx
      rcases List.mem_cons.mp hx with heq | hmem
      · subst heq
        exact Or.inl (word_of_slugKeep_not_run x hc (by simpa using hr))
      · exact ih false hrest x hmem

theorem collapseGo_true_head : ∀ (l : Line) (x : Char),
    (collapseGo true l).head? = some x → isRunChar x = false := by
  intro l
  induction l with
  | nil => intro x hx; cases hx
  | cons c rest ih =>
    intro x hx
    rw [collapseGo] at hx
    by_cases hr : isRunChar c = true
    · rw [if_pos hr, if_pos rfl] at hx
      exact ih x hx
    · rw [if_neg hr] at hx
      injection hx with hx
      subst hx
      simpa using hr

theorem collapseGo_chain : ∀ (l : Line) (b : Bool),
    List.Chain' (fun a d => ¬(isRunChar a = true ∧ isRunChar d = true))
      (collapseGo b l) := by
  intro l
  induction l with
  | nil => intro b; exact List.chain'_nil
  | cons c rest ih =>
    intro b
    rw [collapseGo]
    by_cases hr : isRunChar c = true
    · rw [if_pos hr]
      cases b with
      | true => exact ih true
      | false =>
        simp only [Bool.false_eq_true, if_false]
        rw [List.chain'_cons']
        refine ⟨?_, ih true⟩
        intro y hy
        intro hpair
        have := collapseGo_true_head rest y hy
        rw [this] at hpair
        cases hpair.2
    · rw [if_neg hr]
      rw [List.chain'_cons']
      refine ⟨?_, ih false⟩
      intro y hy hpair
      exact hr hpair.1

theorem collapseGo_true_eq_false (l : Line)
    (hhead : ∀ x, l.head? = some x → isRunChar x = false) :
    collapseGo true l = collapseGo false l := by
  cases l with
  | nil => rfl
  | cons c rest =>
    have hc : isRunChar c = false := hhead c rfl
    rw [collapseGo, collapseGo, if_neg (by rw [hc]; exact Bool.false_ne_true),
      if_neg (by rw [hc]; exact Bool.false_ne_true)]

theorem collapseGo_fix : ∀ (l : Line),
    (∀ x ∈ l, isWordChar x = true ∨ x = '-') →
    List.Chain' (fun a d => ¬(isRunChar a = true ∧ isRunChar d = true)) l →
    collapseGo false l = l := by
  intro l
  induction l with
  | nil => intro _ _; rfl
  | cons c rest ih =>
    intro hchars hchain
    have hcrest : ∀ x ∈ rest, isWordChar x = true ∨ x = '-' :=
      fun x hx => hchars x (List.mem_cons_of_mem c hx)
    have hchainrest : List.Chain' _ rest := hchain.tail
    rw [collapseGo]
    by_cases hr : isRunChar c = true
    · rw [if_pos hr]
      simp only [Bool.false_eq_true, if_neg]
      have hc : c = '-' := by
        rcases hchars c (List.mem_cons_self c rest) with hw | hh
        · rw [isRunChar_of_word c hw] at hr; cases hr
        · exact hh
      rw [collapseGo_true_eq_false rest ?hhead, ih hcrest hchainrest, hc]
      · simp
      case hhead =>
        intro x hx
        rcases List.chain'_cons'.mp hchain with ⟨hpair, _⟩
        have := hpair x hx
        cases hxr : isRunChar x with
        | false => rfl
        | true => exact absurd ⟨hr, hxr⟩ this
    · rw [if_neg hr, ih hcrest hchainrest]


theorem mem_stripLeft (l : Line) (x : Char) (h : x ∈ stripLeft l) : x ∈ l :=
  (List.dropWhile_sublist isWs).subset h

theorem mem_strip (l : Line) (x : Char) (h : x ∈ strip l) : x ∈ l := by
  unfold strip stripRight at h
  rw [List.mem_reverse] at h
  have h2 := (List.dropWhile_sublist isWs).subset h
  rw [List.mem_reverse] at h2
  exact mem_stripLeft l x h2

theorem strip_of_no_ws (l : Line) (h : ∀ x ∈ l, isWs x = false) :
    strip l = l := by
  have hleft : ∀ (m : Line), (∀ x ∈ m, isWs x = false) → m.dropWhile isWs = m := by
    intro m hm
    cases m with
    | nil => rfl
    | cons a as =>
      rw [List.dropWhile_cons, if_neg]
      rw [hm a (List.mem_cons_self a as)]
      exact Bool.false_ne_true
  unfold strip stripRight stripLeft
  rw [hleft l h]
  rw [hleft l.reverse (fun x hx => h x (List.mem_reverse.mp hx))]
  exact List.reverse_reverse l

/-- Over the ASCII fragment, the slug pipeline is idempotent: the output
consists of lowercase-stable word characters and single hyphens with no
whitespace and no adjacent run characters, so each stage of a second
application is the identity. -/
theorem slugify_ascii_idem (x : Line) :
    slugify (slugify x) = slugify x := by
  have hk : ∀ c ∈ x.filter isSlugKeep, isSlugKeep c = true :=
    fun c hc => (List.mem_filter.mp hc).2
  have hs1 : ∀ c ∈ strip (x.filter isSlugKeep), isSlugKeep c = true :=
    fun c hc => hk c (mem_strip _ c hc)
  have hv_chars : ∀ c ∈ collapseGo false (strip (x.filter isSlugKeep)),
      isWordChar c = true ∨ c = '-' :=
    mem_collapseGo_chars _ false hs1
  have hv_chain := collapseGo_chain (strip (x.filter isSlugKeep)) false
  have hu_chars : ∀ c ∈ slugify x, isWordChar c = true ∨ c = '-' := by
    intro c hc
    unfold slugify pyLowerStr collapseRuns at hc
    rcases List.mem_map.mp hc with ⟨d, hd, rfl⟩
    rcases hv_chars d hd with hw | hh
    · exact Or.inl (isWordChar_toLower d hw)
    · subst hh
      right
      decide
  have hu_chain : List.Chain' (fun a d => ¬(isRunChar a = true ∧ isRunChar d = true))
      (slugify x) := by
    unfold slugify pyLowerStr collapseRuns
    rw [List.chain'_map]
    apply hv_chain.imp
    intro a b hab hpair
    rw [isRunChar_toLower, isRunChar_toLower] at hpair
    exact hab hpair
  have hfix1 : (slugify x).filter isSlugKeep = slugify x := by
    rw [List.filter_eq_self]
    intro a ha
    rcases hu_chars a ha with hw | hh
    · exact isSlugKeep_of_word a hw
    · subst hh; decide
  have hfix2 : strip (slugify x) = slugify x := by
    apply strip_of_no_ws
    intro a ha
    rcases hu_chars a ha with hw | hh
    · exact isWs_of_word a hw
    · subst hh; decide
  have hfix3 : collapseRuns (slugify x) = slugify x := by
    unfold collapseRuns
    exact collapseGo_fix (slugify x) hu_chars hu_chain
  have hfix4 : pyLowerStr (slugify x) = slugify x := by
    show (slugify x).map Char.toLower = slugify x
    unfold slugify pyLowerStr collapseRuns
    rw [List.map_map]
    apply List.map_congr_left
    intro a _
    exact toLower_idem a
  show pyLowerStr (collapseRuns (strip ((slugify x).filter isSlugKeep))) = slugify x
  rw [hfix1, hfix2, hfix3, hfix4]



theorem slugify_chars (x : Line) :
    ∀ c ∈ slugify x, isWordChar c = true ∨ c = '-' := by
  intro c hc
  unfold slugify pyLowerStr collapseRuns at hc
  rcases List.mem_map.mp hc with ⟨d, hd, rfl⟩
  rcases mem_collapseGo_chars _ false
      (fun e he => (List.mem_filter.mp (mem_strip _ e he)).2) d hd with hw | hh
  · exact Or.inl (isWordChar_toLower d hw)
  · subst hh; right; decide

theorem slugify_ascii_output (x : Line) : ∀ c ∈ slugify x, c.toNat ≤ 127 := by
  intro c hc
  rcases slugify_chars x c hc with hw | hh
  · simp only [isWordChar, Bool.or_eq_true, Bool.and_eq_true,
      decide_eq_true_eq] at hw
    omega
  · subst hh; decide

theorem mem_collapseGo_subset : ∀ (l : Line) (b : Bool) (x : Char),
    x ∈ collapseGo b l → x ∈ l ∨ x = '-' := by
  intro l
  induction l with
  | nil => intro b x hx; cases hx
  | cons c rest ih =>
    intro b x hx
    rw [collapseGo] at hx
    by_cases hr : isRunChar c = true
    · rw [if_pos hr] at hx
      cases b with
      | true =>
        rcases ih true x hx with h | h
        · exact Or.inl (List.mem_cons_of_mem c h)
        · exact Or.inr h
      | false =>
        simp only [Bool.false_eq_true, if_false] at hx
        rcases List.mem_cons.mp hx with heq | hmem
        · exact Or.inr heq
        · rcases ih true x hmem with h | h
          · exact Or.inl (List.mem_cons_of_mem c h)
          · exact Or.inr h
    · rw [if_neg hr] at hx
      rcases List.mem_cons.mp hx with heq | hmem
      · exact Or.inl (heq ▸ List.mem_cons_self c rest)
      · rcases ih false x hmem with h | h
        · exact Or.inl (List.mem_cons_of_mem c h)
        · exact Or.inr h

theorem isSlugKeepU_ascii (c : Char) (h : c.toNat ≤ 127) :
    isSlugKeepU c = isSlugKeep c := by
  have h304 : decide (c.toNat = 304) = false := by
    simp only [decide_eq_false_iff_not]
    omega
  simp only [isSlugKeepU, isWordCharU, isSlugKeep, h304, Bool.or_false]

theorem filter_slugKeepU_ascii : ∀ (x : Line), (∀ c ∈ x, c.toNat ≤ 127) →
    x.filter isSlugKeepU = x.filter isSlugKeep := by
  intro x
  induction x with
  | nil => intro _; rfl
  | cons c rest ih =>
    intro h
    rw [List.filter_cons, List.filter_cons,
      isSlugKeepU_ascii c (h c (List.mem_cons_self c rest)),
      ih (fun d hd => h d (List.mem_cons_of_mem c hd))]

theorem pyLowerStrFull_ascii : ∀ (l : Line), (∀ c ∈ l, c.toNat ≤ 127) →
    pyLowerStrFull l = pyLowerStr l := by
  intro l
  induction l with
  | nil => intro _; rfl
  | cons c rest ih =>
    intro h
    have hc : pyLowerFull c = [Char.toLower c] := by
      unfold pyLowerFull
      rw [if_neg]
      have := h c (List.mem_cons_self c rest)
      omega
    rw [pyLowerStrFull, hc, ih (fun d hd => h d (List.mem_cons_of_mem c hd))]
    rfl

theorem slugifyU_ascii (x : Line) (h : ∀ c ∈ x, c.toNat ≤ 127) :
    slugifyU x = slugify x := by
  unfold slugifyU slugify
  rw [filter_slugKeepU_ascii x h]
  apply pyLowerStrFull_ascii
  intro c hc
  unfold collapseRuns at hc
  rcases mem_collapseGo_subset _ false c hc with hmem | hh
  · exact h c (List.mem_filter.mp (mem_strip _ c hmem)).1
  · subst hh; decide

/-- C8, counterexample: with the full, length-changing lowercase mapping of
U+0130 to i followed by the combining dot above, and the combining dot not
being a word character, the first pass yields the two-character slug while
the second pass strips the combining dot, so slug derivation is not
idempotent on every string. -/
theorem claim8_unicode_not_idempotent :
    slugifyU exTurkishTitle = ['i', '\u0307'] ∧
    slugifyU (slugifyU exTurkishTitle) = ['i'] ∧
    slugifyU (slugifyU exTurkishTitle) ≠ slugifyU exTurkishTitle := by
  decide

/-- C8 (amended): slug derivation is idempotent on every title whose
characters are ASCII; on such input the extended pipeline agrees with the
ASCII pipeline, whose output is again ASCII, and that pipeline is
idempotent. -/
theorem claim8_slugify_idempotent_on_ascii (x : Line)
    (h : ∀ c ∈ x, c.toNat ≤ 127) :
    slugifyU (slugifyU x) = slugifyU x := by
  rw [slugifyU_ascii x h, slugifyU_ascii (slugify x) (slugify_ascii_output x)]
  exact slugify_ascii_idem x

/-- C8 witness: the amended theorem applied to a concrete ASCII title. -/
theorem claim8_slugify_idempotent_on_ascii_witness :
    (∀ c ∈ lchars "My Title 9", c.toNat ≤ 127) ∧
    slugifyU (slugifyU (lchars "My Title 9")) = slugifyU (lchars "My Title 9") :=
  ⟨by decide, claim8_slugify_idempotent_on_ascii (lchars "My Title 9") (by decide)⟩


end BarcodeDocs
